import Mathlib

/-!
Shallow embedding of `quantopian.py` (functions `get_pricing` and `RollingOLS`).

Numeric values are modelled over `ℚ`; a pandas `NaN` cell is modelled as
`none : Option ℚ`.  A time series (pandas `Series` with a timestamp index) is a
`List (ℕ × ℚ)` of (timestamp, value) pairs; slicing in the source is positional
slicing, which on lists is `drop`/`take`.  A pandas `DataFrame` is modelled
column-major as a `Frame`: a timestamp index plus labelled value columns.
A Python exception is modelled as `none` / `PriceResult.error`.
-/

namespace Quantopian

/-! ### The OLS solver (external collaborator B)

Calling `sm.OLS(y, X).fit().params` for a full-rank two-column design matrix
`X = [const, x]` (note: `sm.add_constant` PREPENDS the constant column, so the
constant is column 0) returns the normal-equation solution `(X'X)⁻¹ X'y`,
i.e. by Cramer's rule with `det = n·Σx² - (Σx)²`:
`params[0] = intercept = (Σx²·Σy - Σx·Σxy)/det`,
`params[1] = slope     = (n·Σxy - Σx·Σy)/det`. -/

def listSum (l : List ℚ) : ℚ := l.foldr (· + ·) 0

def sumSq (l : List ℚ) : ℚ := listSum (l.map (fun a => a * a))

def sumMul (a b : List ℚ) : ℚ := listSum (List.zipWith (· * ·) a b)

/-- Determinant of `X'X` for the design matrix `[const, x]`.
This is `n²` times the variance of `x`; it is nonzero iff the window of `x`
has nonzero variance. -/
def olsDen (x : List ℚ) : ℚ :=
  (x.length : ℚ) * sumSq x - (listSum x) ^ 2

/-- Fitted intercept (coefficient of the prepended constant column). -/
def olsIntercept (y x : List ℚ) : ℚ :=
  (sumSq x * listSum y - listSum x * sumMul x y) / olsDen x

/-- Fitted slope (coefficient of the `x` column). -/
def olsSlope (y x : List ℚ) : ℚ :=
  ((x.length : ℚ) * sumMul x y - listSum x * listSum y) / olsDen x

/-- Model of `list(sm.OLS(y_new, x_new).fit().params)` for
`x_new = sm.add_constant(x)`: the parameters in design-matrix column order,
constant column FIRST, i.e. `(intercept, slope)`. -/
def olsParams (y x : List ℚ) : ℚ × ℚ :=
  (olsIntercept y x, olsSlope y x)

/-! ### RollingOLS

```python
def RollingOLS(y, x, window=30):
    result = pd.DataFrame(columns=('x', 'intercept'), index=y[window:].index)
    for i_start in range(len(y) - window):
        i_end = i_start + window
        x_new = sm.add_constant(x[i_start:i_end])
        y_new = y[i_start:i_end]
        model_fit = sm.OLS(y_new, x_new).fit()
        result.iloc[i_start] = list(model_fit.params)
    return result
```

An output row is `(timestamp, colX, colIntercept)` where `colX` is the value
stored in the DataFrame column labelled `'x'` and `colIntercept` the value in
the column labelled `'intercept'`.  `result.iloc[i] = list(params)` assigns the
parameter list positionally, so `colX = params[0]` and
`colIntercept = params[1]`. -/

def RollingOLS (y x : List (ℕ × ℚ)) (window : ℕ) : List (ℕ × ℚ × ℚ) :=
  List.zipWith
    (fun (t : ℕ) (i_start : ℕ) =>
      let y_new := ((y.map Prod.snd).drop i_start).take window
      let x_new := ((x.map Prod.snd).drop i_start).take window
      (t, olsParams y_new x_new))
    ((y.drop window).map Prod.fst)
    (List.range (y.length - window))

/-! ### The get_pricing data model

```python
def get_pricing(symbol, start_date='1900-01-01', end_date=None,
                frequency='daily', fields=None):
    if type(symbol) == list and fields:
        prices_df = pd.DataFrame()
        for item in symbol:
            prices_df[item] = get_pricing(item, start_date, end_date,
                                          frequency, fields)[fields]
        return prices_df.dropna()
    ...
    ticker = yf.Ticker(symbol)
    df = ticker.history(start=start_date, end=end_date, interval=frequency)
    df = df.rename(columns={'Open':'open_price', 'High':'high', 'Low':'low',
                            'Close':'close_price', 'Volume':'volume'})
    df = df.drop(['Dividends', 'Stock Splits'], axis=1)
    df['price'] = df['close_price']
    if fields:
        fields = ''.join(fields).split(',')
        df = df[fields]
    return df
```

The date and frequency arguments only parametrize the external provider call
and do not influence the data-shaping logic the claims are about, so the
provider is abstracted as a function `history : Symbol → Frame` (the
composition of `yf.Ticker` and `.history(...)`). -/

/-- A cell value; `none` models pandas `NaN` (a missing value). -/
abbrev Val := Option ℚ

/-- Column-major model of a pandas `DataFrame`: a timestamp index plus
labelled columns of cell values. -/
structure Frame where
  idx : List ℕ
  cols : List (String × List Val)
deriving DecidableEq

/-- The `symbol` argument: a single ticker string or a list of tickers
(`type(symbol) == list`). -/
inductive Symbol where
  | one (s : String)
  | many (l : List String)
deriving DecidableEq

def Symbol.isMany : Symbol → Bool
  | Symbol.one _ => false
  | Symbol.many _ => true

/-- The `fields` argument: a string or a list of strings. -/
inductive Fields where
  | str (s : String)
  | lst (l : List String)
deriving DecidableEq

/-- Model of Python `''.join(fields)`: on a string it is the identity (joining
the characters of a string with the empty separator), on a list it is plain
concatenation. -/
def joinFields : Fields → String
  | Fields.str s => s
  | Fields.lst l => String.join l

/-- Model of Python `str.split(',')` (splitting at every comma, keeping empty
chunks; `''.split(',') == ['']`), written by structural recursion on the
character list so that it evaluates in the kernel. -/
def splitCommaAux : List Char → List Char → List String
  | [], cur => [String.mk cur.reverse]
  | c :: rest, cur =>
    if c = ',' then String.mk cur.reverse :: splitCommaAux rest []
    else splitCommaAux rest (c :: cur)

def splitComma (s : String) : List String := splitCommaAux s.toList []

/-- Model of `''.join(fields).split(',')`. -/
def splitFields (f : Fields) : List String := splitComma (joinFields f)

/-- Python truthiness of the `fields` argument (`if fields:`): `None`, `''`
and `[]` are falsy. -/
def fieldsTruthy : Option Fields → Bool
  | none => false
  | some (Fields.str s) => !s.isEmpty
  | some (Fields.lst l) => !l.isEmpty

/-- The column renaming `{'Open':'open_price', 'High':'high', 'Low':'low',
'Close':'close_price', 'Volume':'volume'}`; other labels are unchanged. -/
def renameCol (c : String) : String :=
  if c = "Open" then "open_price"
  else if c = "High" then "high"
  else if c = "Low" then "low"
  else if c = "Close" then "close_price"
  else if c = "Volume" then "volume"
  else c

/-- Values of the column labelled `c` (first match; `[]` if absent — the
claims only use it where presence is hypothesized or concrete). -/
def lookupColVals (cols : List (String × List Val)) (c : String) : List Val :=
  match cols.find? (fun p => p.1 == c) with
  | some p => p.2
  | none => []

def hasCol (cols : List (String × List Val)) (c : String) : Bool :=
  cols.any (fun p => p.1 == c)

/-- Model of the single-symbol post-processing: rename provider-native labels,
drop the two provider-specific columns, append `price` as a copy of
`close_price`.  (`df.drop` would raise on a frame lacking the two labels and
`df['close_price']` on one lacking `Close`; every claim about this code path
supplies the full provider-native schema, on which the filter/lookup model
coincides with the source.) -/
def processRaw (f : Frame) : Frame :=
  let renamed := f.cols.map (fun p => (renameCol p.1, p.2))
  let dropped := renamed.filter (fun p => !(p.1 == "Dividends" || p.1 == "Stock Splits"))
  ⟨f.idx, dropped ++ [("price", lookupColVals dropped "close_price")]⟩

/-- Model of `df[fields]` for a list of labels: project to exactly those
columns, in the requested order; a missing label raises `KeyError`,
modelled as `none`. -/
def project (f : Frame) (names : List String) : Option Frame :=
  if names.all (hasCol f.cols) then
    some ⟨f.idx, names.map (fun n => (n, lookupColVals f.cols n))⟩
  else none

/-- The single-symbol path of `get_pricing` (everything after the multi-symbol
branch): fetch from the provider, normalize, and project when `fields` is
truthy. -/
def singleFetch (history : Symbol → Frame) (sym : Symbol)
    (fields : Option Fields) : Option Frame :=
  let df := processRaw (history sym)
  if fieldsTruthy fields then
    match fields with
    | some fs => project df (splitFields fs)
    | none => some df
  else some df

/-- The column labelled `c` of a frame as a (timestamp, value) series. -/
def seriesOf (f : Frame) (c : String) : List (ℕ × Val) :=
  f.idx.zip (lookupColVals f.cols c)

/-- Index-aligned lookup of a series at timestamp `t`: a timestamp absent from
the series aligns to `NaN` (`none`). -/
def colAt (series : List (ℕ × Val)) (t : ℕ) : Val :=
  match series.find? (fun p => p.1 == t) with
  | some p => p.2
  | none => none

/-- Model of `df[c]` for a string label `c`: the column as a series;
a missing label raises `KeyError`, modelled as `none`. -/
def frameSelect (f : Frame) (c : String) : Option (List (ℕ × Val)) :=
  if hasCol f.cols c then some (seriesOf f c) else none

/-- Model of `prices_df[item] = series`: assigning a series column to a
DataFrame.  The first assignment to an empty frame adopts the series' index;
later assignments align the series to the existing index (missing timestamps
become `NaN`) and either OVERWRITE the column if the label already exists
(keeping its position) or append a new column. -/
def assignCol (acc : Frame) (name : String) (series : List (ℕ × Val)) : Frame :=
  if acc.cols.isEmpty then
    ⟨series.map Prod.fst, [(name, series.map Prod.snd)]⟩
  else if hasCol acc.cols name then
    ⟨acc.idx, acc.cols.map (fun p =>
      if p.1 == name then (p.1, acc.idx.map (colAt series)) else p)⟩
  else
    ⟨acc.idx, acc.cols ++ [(name, acc.idx.map (colAt series))]⟩

/-- The multi-symbol loop: for each `item` in `symbol`, fetch it individually
(`get_pricing(item, ...)`, which for a single ticker is the single-symbol
path), select the requested field (`[fields]`), and assign the series as a new
column; an exception anywhere propagates (`none`). -/
def multiLoop (fetchOne : String → Option Frame) (fld : String) :
    List String → Frame → Option Frame
  | [], acc => some acc
  | s :: rest, acc =>
    match fetchOne s with
    | none => none
    | some frm =>
      match frameSelect frm fld with
      | none => none
      | some series => multiLoop fetchOne fld rest (assignCol acc s series)

/-- Row positions kept by `dropna()`: those where every column holds a
present (non-`NaN`) value. -/
def keepRows (f : Frame) : List ℕ :=
  (List.range f.idx.length).filter
    (fun i => f.cols.all (fun p => (p.2.getD i none).isSome))

/-- Model of `DataFrame.dropna()`: drop every row containing a missing
value. -/
def dropna (f : Frame) : Frame :=
  ⟨(keepRows f).map (fun i => f.idx.getD i 0),
   f.cols.map (fun p => (p.1, (keepRows f).map (fun i => p.2.getD i none)))⟩

/-- Result of a `get_pricing` call: a frame, or a propagated exception. -/
inductive PriceResult where
  | frame (f : Frame)
  | error
deriving DecidableEq

def toResult : Option Frame → PriceResult
  | some f => PriceResult.frame f
  | none => PriceResult.error

/-- Model of `get_pricing`.  The multi-symbol branch is taken exactly when
`type(symbol) == list and fields` holds; otherwise the whole `symbol` argument
(be it a string or a list) flows unchanged into the single-symbol path and
hence into the provider lookup.  In the multi-symbol branch with a list-valued
`fields`, `prices_df[item] = get_pricing(item, ...)[fields]` assigns a
multi-column selection to a single column, which raises; no claim depends on
that corner and it is modelled as an error. -/
def get_pricing (history : Symbol → Frame) (sym : Symbol)
    (fields : Option Fields) : PriceResult :=
  if Symbol.isMany sym && fieldsTruthy fields then
    match sym, fields with
    | Symbol.many l, some (Fields.str fld) =>
      match multiLoop (fun s => singleFetch history (Symbol.one s) fields) fld l ⟨[], []⟩ with
      | some frm => PriceResult.frame (dropna frm)
      | none => PriceResult.error
    | _, _ => PriceResult.error
  else toResult (singleFetch history sym fields)

/-- Per-column provenance invariant for the assembled multi-symbol frame:
every column is labelled by a symbol, comes from that symbol's individual
fetch, and its values are the index-aligned values of that symbol's series
for the requested field. -/
def ColsOk (fetchOne : String → Option Frame) (fld : String) (f : Frame) : Prop :=
  ∀ p ∈ f.cols, ∃ frm, fetchOne p.1 = some frm ∧
    p.2 = f.idx.map (colAt (seriesOf frm fld))

/-! ### Concrete inputs used by witnesses and counterexamples -/

/-- Example series exhibiting the column swap: fitting `y = [1, 2, 4]` on
`x = [0, 1, 2]` (with intercept) gives slope `3/2` and intercept `5/6`. -/
def yBug : List (ℕ × ℚ) := [(10, 1), (11, 2), (12, 4), (13, 8)]

def xBug : List (ℕ × ℚ) := [(10, 0), (11, 1), (12, 2), (13, 3)]

/-- Series used as a small concrete witness input. -/
def yWit : List (ℕ × ℚ) := [(0, 1), (1, 2), (2, 4), (3, 8)]

/-- A length-40 series: the C3 witness instantiates the claim at `window = 30`,
yielding exactly `40 - 30 = 10` rows. -/
def y40 : List (ℕ × ℚ) := (List.range 40).map (fun i => (i, (i : ℚ)))

/-- A length-6 series with nonzero variance on its single window of size 5. -/
def y5 : List (ℕ × ℚ) := [(0, 0), (1, 1), (2, 2), (3, 3), (4, 4), (5, 5)]

/-- A provider-native table: the seven columns returned by the market-data
provider, indexed by two timestamps. -/
def rawNative : Frame :=
  ⟨[100, 101],
   [("Open", [some 1, some 2]), ("High", [some 3, some 4]),
    ("Low", [some 5, some 6]), ("Close", [some 7, some 8]),
    ("Volume", [some 9, some 10]),
    ("Dividends", [some 0, some 0]), ("Stock Splits", [some 0, some 0])]⟩

/-- A provider that returns `rawNative` for every lookup. -/
def histEx : Symbol → Frame := fun _ => rawNative

/-- The frame produced by the single-symbol path of `histEx` under
`fields='price'`. -/
def frmSel : Frame := ⟨[100, 101], [("price", [some 7, some 8])]⟩

/-- The frame produced by the multi-symbol path of `histEx` for symbols
`['A', 'B']` with `fields='price'`. -/
def resEx : Frame :=
  ⟨[100, 101], [("A", [some 7, some 8]), ("B", [some 7, some 8])]⟩

/-! ### Helper lemmas -/

lemma length_RollingOLS (y x : List (ℕ × ℚ)) (w : ℕ) :
    (RollingOLS y x w).length = y.length - w := by
  simp [RollingOLS, List.length_zipWith]

lemma sumMul_self (x : List ℚ) : sumMul x x = sumSq x := by
  simp [sumMul, sumSq, List.zipWith_same]

lemma olsSlope_self (x : List ℚ) (h : olsDen x ≠ 0) : olsSlope x x = 1 := by
  have hnum : (x.length : ℚ) * sumMul x x - listSum x * listSum x = olsDen x := by
    rw [sumMul_self]; unfold olsDen; ring
  rw [olsSlope, hnum, div_self h]

lemma olsIntercept_self (x : List ℚ) : olsIntercept x x = 0 := by
  have hnum : sumSq x * listSum x - listSum x * sumMul x x = 0 := by
    rw [sumMul_self]; ring
  rw [olsIntercept, hnum, zero_div]

/-! ### Claim theorems for `RollingOLS` -/

/-- C1, code bug: the claim (and the code's own column labels) say the slope is
stored in the `'x'` column and the intercept in the `'intercept'` column.  But
`sm.add_constant` PREPENDS the constant column, so `list(model_fit.params)` is
`[intercept, slope]`, and `result.iloc[i] = list(model_fit.params)` assigns it
positionally to the columns `('x', 'intercept')`: the `'x'` column receives the
intercept `5/6` and the `'intercept'` column the slope `3/2`, swapped. -/
theorem RollingOLS_columns_swapped :
    RollingOLS yBug xBug 3 = [(13, 5 / 6, 3 / 2)] ∧
    olsSlope [1, 2, 4] [0, 1, 2] = 3 / 2 ∧
    olsIntercept [1, 2, 4] [0, 1, 2] = 5 / 6 := by
  refine ⟨?_, ?_, ?_⟩ <;>
    norm_num [yBug, xBug, RollingOLS, olsParams, olsSlope, olsIntercept, olsDen,
      sumSq, sumMul, listSum, List.range_succ]

/-- C2: output row `i` carries `y`'s timestamp at position `window + i`
(the index of the output DataFrame is `y[window:].index`), not the window-end
timestamp `y[i + window - 1]`. -/
theorem RollingOLS_index_policy (y x : List (ℕ × ℚ)) (w i : ℕ)
    (hw : w ≤ y.length) (hi : i < (RollingOLS y x w).length)
    (hyi : w + i < y.length) :
    ((RollingOLS y x w).get ⟨i, hi⟩).1 = (y.get ⟨w + i, hyi⟩).1 := by
  simp [RollingOLS, List.get_eq_getElem, List.getElem_zipWith, List.getElem_map,
    List.getElem_drop]

theorem RollingOLS_index_policy_witness :
    ((RollingOLS yWit yWit 3).get ⟨0, by decide⟩).1 = (yWit.get ⟨3 + 0, by decide⟩).1 :=
  RollingOLS_index_policy yWit yWit 3 0 (by decide) (by decide) (by decide)

/-- C3: the number of output rows is `len(y) - window` (the loop runs over
`range(len(y) - window)`, and the preallocated index `y[window:].index` has the
same length). -/
theorem RollingOLS_length (y x : List (ℕ × ℚ)) (w : ℕ)
    (hpos : 0 < w) (hle : w ≤ y.length) :
    (RollingOLS y x w).length = y.length - w :=
  length_RollingOLS y x w

theorem RollingOLS_length_witness : (RollingOLS y40 y40 30).length = 10 := by
  have h := RollingOLS_length y40 y40 30 (by decide) (by simp [y40])
  simpa [y40] using h

/-- C4: when `window ≥ len(y)` the loop bound `len(y) - window` is `≤ 0` and
the preallocated index `y[window:]` is empty, so the result has zero rows; the
function is total (no exception is raised). -/
theorem RollingOLS_degenerate_window (y x : List (ℕ × ℚ)) (w : ℕ)
    (h : y.length ≤ w) : RollingOLS y x w = [] := by
  have h0 : y.length - w = 0 := Nat.sub_eq_zero_of_le h
  simp [RollingOLS, h0]

theorem RollingOLS_degenerate_window_witness : RollingOLS yWit yWit 10 = [] :=
  RollingOLS_degenerate_window yWit yWit 10 (by decide)

/-- C5: on `RollingOLS(y, y, 5)` (both arguments the same series), every window
whose design-matrix determinant `olsDen` is nonzero (equivalently: whose `x`
values have nonzero variance) yields fitted slope `1` and fitted intercept `0`;
the output row stores the pair `(0, 1)` — the intercept `0` in the column
labelled `'x'` and the slope `1` in the column labelled `'intercept'`, per the
positional assignment noted at C1. -/
theorem RollingOLS_identical_series (y : List (ℕ × ℚ)) (i : ℕ)
    (hi : i < (RollingOLS y y 5).length)
    (hvar : olsDen (((y.map Prod.snd).drop i).take 5) ≠ 0) :
    olsSlope (((y.map Prod.snd).drop i).take 5) (((y.map Prod.snd).drop i).take 5) = 1 ∧
    olsIntercept (((y.map Prod.snd).drop i).take 5) (((y.map Prod.snd).drop i).take 5) = 0 ∧
    ((RollingOLS y y 5).get ⟨i, hi⟩).2 = (0, 1) := by
  refine ⟨olsSlope_self _ hvar, olsIntercept_self _, ?_⟩
  simp [RollingOLS, List.get_eq_getElem, List.getElem_zipWith, List.getElem_range,
    olsParams, olsSlope_self _ hvar, olsIntercept_self]

theorem RollingOLS_identical_series_witness :
    olsSlope [(0 : ℚ), 1, 2, 3, 4] [(0 : ℚ), 1, 2, 3, 4] = 1 ∧
    olsIntercept [(0 : ℚ), 1, 2, 3, 4] [(0 : ℚ), 1, 2, 3, 4] = 0 ∧
    ((RollingOLS y5 y5 5).get ⟨0, by decide⟩).2 = (0, 1) := by
  have h := RollingOLS_identical_series y5 0 (by decide)
    (by norm_num [y5, olsDen, sumSq, listSum])
  simpa [y5] using h

/-- C10: `RollingOLS` is a pure, deterministic function of its inputs: equal
inputs give equal outputs (the embedding is a total function, modelling the
absence of side effects in the source). -/
theorem RollingOLS_deterministic (y₁ y₂ x₁ x₂ : List (ℕ × ℚ)) (w₁ w₂ : ℕ)
    (hy : y₁ = y₂) (hx : x₁ = x₂) (hw : w₁ = w₂) :
    RollingOLS y₁ x₁ w₁ = RollingOLS y₂ x₂ w₂ := by
  rw [hy, hx, hw]

theorem RollingOLS_deterministic_witness :
    RollingOLS yWit yWit 3 = RollingOLS yWit yWit 3 :=
  RollingOLS_deterministic yWit yWit yWit yWit 3 3 rfl rfl rfl

/-! ### Claim theorems for `get_pricing` -/

/-- C6, code bug: the claim (and the function's docstring, which advertises
`fields : str or list`) says a non-empty `fields` — whether a comma-separated
string or a sequence of names — projects the single-symbol result to exactly
those columns.  The string form works (third conjunct), but for a sequence the
code computes `''.join(fields).split(',')`, concatenating the names WITHOUT
commas: `['price', 'volume']` becomes the single bogus label `'pricevolume'`
(first conjunct) and the projection raises `KeyError` instead of returning the
two columns (second conjunct). -/
theorem get_pricing_seq_fields_error :
    splitFields (Fields.lst ["price", "volume"]) = ["pricevolume"] ∧
    get_pricing histEx (Symbol.one ("SPY")) (some (Fields.lst ["price", "volume"])) =
      PriceResult.error ∧
    get_pricing histEx (Symbol.one ("SPY")) (some (Fields.str "price,volume")) =
      PriceResult.frame ⟨[100, 101],
        [("price", [some 7, some 8]), ("volume", [some 9, some 10])]⟩ := by
  refine ⟨by decide, by decide, by decide⟩

/-- C7: on the single-symbol path with `fields=None`, given that the provider
returns its native table (Open/High/Low/Close/Volume plus the two
provider-specific columns), the result has exactly the six normalized columns
{open_price, high, low, close_price, volume, price}, and the `price` column is
the very same value list `c` as the `close_price` column. -/
theorem get_pricing_single_no_fields (history : Symbol → Frame) (s : String)
    (idx : List ℕ) (o h lo c v d sp : List Val)
    (hh : history (Symbol.one s) =
      ⟨idx, [("Open", o), ("High", h), ("Low", lo), ("Close", c),
             ("Volume", v), ("Dividends", d), ("Stock Splits", sp)]⟩) :
    get_pricing history (Symbol.one s) none =
      PriceResult.frame ⟨idx,
        [("open_price", o), ("high", h), ("low", lo), ("close_price", c),
         ("volume", v), ("price", c)]⟩ := by
  simp [get_pricing, Symbol.isMany, fieldsTruthy, toResult, singleFetch,
    processRaw, renameCol, lookupColVals, hh, List.filter, List.find?]

theorem get_pricing_single_no_fields_witness :
    get_pricing histEx (Symbol.one ("SPY")) none =
      PriceResult.frame ⟨[100, 101],
        [("open_price", [some 1, some 2]), ("high", [some 3, some 4]),
         ("low", [some 5, some 6]), ("close_price", [some 7, some 8]),
         ("volume", [some 9, some 10]), ("price", [some 7, some 8])]⟩ :=
  get_pricing_single_no_fields histEx "SPY" [100, 101]
    [some 1, some 2] [some 3, some 4] [some 5, some 6] [some 7, some 8]
    [some 9, some 10] [some 0, some 0] [some 0, some 0] rfl

/-- C9: when `symbol` is a list but `fields` is falsy (`None`, `''` or `[]`),
the multi-symbol branch is not taken: the call is exactly the single-symbol
path applied to the list as-is (first conjunct), and in particular it performs
no per-symbol recursion — the result depends on the provider only through the
one lookup `history (Symbol.many l)` with the whole list (second conjunct). -/
theorem get_pricing_list_no_fields (history : Symbol → Frame) (l : List String)
    (fields : Option Fields) (hf : fieldsTruthy fields = false) :
    get_pricing history (Symbol.many l) fields =
      toResult (singleFetch history (Symbol.many l) fields) ∧
    ∀ h₂ : Symbol → Frame, h₂ (Symbol.many l) = history (Symbol.many l) →
      get_pricing h₂ (Symbol.many l) fields =
        get_pricing history (Symbol.many l) fields := by
  constructor
  · simp [get_pricing, hf]
  · intro h₂ hh
    simp [get_pricing, hf, singleFetch, toResult, hh]

theorem get_pricing_list_no_fields_witness :
    get_pricing histEx (Symbol.many ["A", "B"]) none =
      toResult (singleFetch histEx (Symbol.many ["A", "B"]) none) :=
  (get_pricing_list_no_fields histEx ["A", "B"] none (by decide)).1

/-! ### Lemmas for the multi-symbol path (claim C8) -/

lemma map_colAt_of_nodup (series : List (ℕ × Val))
    (hnd : (series.map Prod.fst).Nodup) :
    (series.map Prod.fst).map (colAt series) = series.map Prod.snd := by
  induction series with
  | nil => rfl
  | cons hd tl ih =>
    obtain ⟨t, v⟩ := hd
    simp only [List.map_cons] at hnd ⊢
    rw [List.nodup_cons] at hnd
    congr 1
    · simp [colAt, List.find?_cons]
    · have hcong : ∀ a ∈ tl.map Prod.fst, colAt ((t, v) :: tl) a = colAt tl a := by
        intro a ha
        have hat : (t == a) = false := by
          simp only [beq_eq_false_iff_ne]
          intro h
          exact hnd.1 (h ▸ ha)
        simp [colAt, List.find?_cons, hat]
      rw [List.map_congr_left hcong, ih hnd.2]

lemma frameSelect_eq_some (frm : Frame) (fld : String)
    (series : List (ℕ × Val)) (h : frameSelect frm fld = some series) :
    series = seriesOf frm fld := by
  by_cases hc : hasCol frm.cols fld
  · simpa [frameSelect, hc] using h.symm
  · simp [frameSelect, hc] at h

lemma hasCol_iff_mem (cols : List (String × List Val)) (c : String) :
    hasCol cols c = true ↔ c ∈ cols.map Prod.fst := by
  simp only [hasCol, List.any_eq_true, beq_iff_eq, List.mem_map]

lemma assignCol_labels_of_not_mem (acc : Frame) (s : String)
    (series : List (ℕ × Val)) (hs : s ∉ acc.cols.map Prod.fst) :
    (assignCol acc s series).cols.map Prod.fst = acc.cols.map Prod.fst ++ [s] := by
  by_cases he : acc.cols.isEmpty
  · have hnil : acc.cols = [] := List.isEmpty_iff.mp he
    simp [assignCol, he, hnil]
  · have hc : hasCol acc.cols s = false := by
      cases hcl : hasCol acc.cols s with
      | false => rfl
      | true => exact absurd ((hasCol_iff_mem acc.cols s).mp hcl) hs
    simp [assignCol, he, hc]

lemma multiLoop_labels (fetchOne : String → Option Frame) (fld : String) :
    ∀ (syms : List String) (acc res : Frame),
      (∀ s ∈ syms, s ∉ acc.cols.map Prod.fst) → syms.Nodup →
      multiLoop fetchOne fld syms acc = some res →
      res.cols.map Prod.fst = acc.cols.map Prod.fst ++ syms := by
  intro syms
  induction syms with
  | nil =>
    intro acc res _ _ h
    simp only [multiLoop, Option.some.injEq] at h
    subst h; simp
  | cons s rest ih =>
    intro acc res hfresh hnodup h
    simp only [multiLoop] at h
    split at h
    · simp at h
    · rename_i frm hf
      split at h
      · simp at h
      · rename_i series hs
        have hs0 : s ∉ acc.cols.map Prod.fst := hfresh s (by simp)
        have hlab := assignCol_labels_of_not_mem acc s series hs0
        have hfresh' : ∀ t ∈ rest, t ∉ (assignCol acc s series).cols.map Prod.fst := by
          intro t ht
          rw [hlab]
          simp only [List.mem_append, List.mem_singleton]
          rintro (htacc | hts)
          · exact hfresh t (by simp [ht]) htacc
          · exact (List.nodup_cons.mp hnodup).1 (hts ▸ ht)
        rw [ih (assignCol acc s series) res hfresh' (List.nodup_cons.mp hnodup).2 h,
          hlab]
        simp

lemma multiLoop_colsOk (fetchOne : String → Option Frame) (fld : String)
    (hnd : ∀ s frm, fetchOne s = some frm →
      ((seriesOf frm fld).map Prod.fst).Nodup) :
    ∀ (syms : List String) (acc res : Frame), ColsOk fetchOne fld acc →
      multiLoop fetchOne fld syms acc = some res → ColsOk fetchOne fld res := by
  intro syms
  induction syms with
  | nil =>
    intro acc res hacc h
    simp only [multiLoop, Option.some.injEq] at h
    subst h; exact hacc
  | cons s rest ih =>
    intro acc res hacc h
    simp only [multiLoop] at h
    split at h
    · simp at h
    · rename_i frm hf
      split at h
      · simp at h
      · rename_i series hs
        have hser : series = seriesOf frm fld := frameSelect_eq_some frm fld series hs
        refine ih (assignCol acc s series) res ?_ h
        intro p hp
        by_cases he : acc.cols.isEmpty
        · simp only [assignCol, he, if_true, List.mem_singleton] at hp
          subst hp
          refine ⟨frm, hf, ?_⟩
          simp only [assignCol, he, if_true]
          rw [hser, map_colAt_of_nodup _ (hnd s frm hf)]
        · by_cases hc : hasCol acc.cols s = true
          · have hp' : p ∈ acc.cols.map (fun q =>
                if q.1 == s then (q.1, acc.idx.map (colAt series)) else q) := by
              simpa [assignCol, he, hc] using hp
            obtain ⟨q, hq, hpq⟩ := List.mem_map.mp hp'
            by_cases hqs : (q.1 == s) = true
            · rw [if_pos hqs] at hpq
              have hq1 : q.1 = s := by simpa using hqs
              refine ⟨frm, ?_, ?_⟩
              · rw [← hpq]; simpa [hq1] using hf
              · rw [← hpq]
                simp [assignCol, he, hc, hser]
            · rw [if_neg hqs] at hpq
              subst hpq
              obtain ⟨frm', hfrm', hcol⟩ := hacc q hq
              refine ⟨frm', hfrm', ?_⟩
              simpa [assignCol, he, hc] using hcol
          · simp [assignCol, he, hc] at hp
            rcases hp with hp | hp
            · obtain ⟨frm', hfrm', hcol⟩ := hacc p hp
              refine ⟨frm', hfrm', ?_⟩
              simpa [assignCol, he, hc] using hcol
            · subst hp
              refine ⟨frm, hf, ?_⟩
              simp [assignCol, he, hc, hser]

lemma mem_keepRows_lt (f : Frame) (i : ℕ) (hi : i ∈ keepRows f) :
    i < f.idx.length :=
  List.mem_range.mp (List.mem_filter.mp hi).1

lemma keepRows_isSome (f : Frame) (i : ℕ) (hi : i ∈ keepRows f)
    (p : String × List Val) (hp : p ∈ f.cols) :
    (p.2.getD i none).isSome = true :=
  (List.all_eq_true.mp (List.mem_filter.mp hi).2) p hp

lemma dropna_labels (f : Frame) :
    (dropna f).cols.map Prod.fst = f.cols.map Prod.fst := by
  simp [dropna, List.map_map, Function.comp]

lemma dropna_isSome (f : Frame) :
    ∀ p ∈ (dropna f).cols, ∀ v ∈ p.2, v.isSome = true := by
  intro p hp v hv
  simp only [dropna, List.mem_map] at hp
  obtain ⟨q, hq, rfl⟩ := hp
  simp only [List.mem_map] at hv
  obtain ⟨i, hi, rfl⟩ := hv
  exact keepRows_isSome f i hi q hq

lemma getD_map_of_lt {α β : Type} (g : α → β) (l : List α) (i : ℕ)
    (d : α) (db : β) (hi : i < l.length) :
    (l.map g).getD i db = g (l.getD i d) := by
  rw [List.getD_eq_getElem?_getD, List.getD_eq_getElem?_getD, List.getElem?_map,
    List.getElem?_eq_getElem hi]
  simp

lemma dropna_colsOk (fetchOne : String → Option Frame) (fld : String)
    (f : Frame) (h : ColsOk fetchOne fld f) : ColsOk fetchOne fld (dropna f) := by
  intro p hp
  simp only [dropna, List.mem_map] at hp
  obtain ⟨q, hq, rfl⟩ := hp
  obtain ⟨frm, hfrm, hcol⟩ := h q hq
  refine ⟨frm, hfrm, ?_⟩
  simp only [dropna, List.map_map]
  apply List.map_congr_left
  intro i hi
  have hlt := mem_keepRows_lt f i hi
  rw [hcol, Function.comp_apply,
    getD_map_of_lt (colAt (seriesOf frm fld)) f.idx i 0 none hlt]

/-- C8: on the multi-symbol path (`symbol` a list, `fields` a non-empty field
string), whenever the call returns a frame `res`:
the columns of `res` are keyed by the symbols in order (first conjunct); every
surviving cell is non-missing, i.e. `dropna` removed every row with a missing
value (second conjunct); and each column comes from that symbol's individual
single-symbol fetch, its values being the index-aligned values of that
symbol's series for the requested field (third conjunct, `ColsOk`).  The
hypothesis `hsy` requires the requested symbols to be distinct (assigning an
already-present label overwrites that column, so a duplicated symbol would
yield one column, not two); the `Nodup` hypothesis on timestamps reflects the
data model (strictly increasing timestamps, no duplicates). -/
theorem get_pricing_multi_symbol (history : Symbol → Frame)
    (syms : List String) (fld : String) (res : Frame)
    (hfld : fld.isEmpty = false) (hsy : syms.Nodup)
    (hres : get_pricing history (Symbol.many syms) (some (Fields.str fld)) =
      PriceResult.frame res)
    (hnd : ∀ s frm,
      singleFetch history (Symbol.one s) (some (Fields.str fld)) = some frm →
      ((seriesOf frm fld).map Prod.fst).Nodup) :
    res.cols.map Prod.fst = syms ∧
    (∀ p ∈ res.cols, ∀ v ∈ p.2, v.isSome = true) ∧
    ColsOk (fun s => singleFetch history (Symbol.one s) (some (Fields.str fld)))
      fld res := by
  simp only [get_pricing, Symbol.isMany, fieldsTruthy, hfld, Bool.not_false,
    Bool.and_self] at hres
  cases hml : multiLoop
      (fun s => singleFetch history (Symbol.one s) (some (Fields.str fld)))
      fld syms ⟨[], []⟩ with
  | none =>
    simp only [hml] at hres
    exact PriceResult.noConfusion hres
  | some frm =>
    simp only [hml] at hres
    have hres' : res = dropna frm := (PriceResult.frame.inj hres).symm
    subst hres'
    refine ⟨?_, dropna_isSome frm, ?_⟩
    · rw [dropna_labels,
        multiLoop_labels _ fld syms ⟨[], []⟩ frm (by simp) hsy hml]
      simp
    · refine dropna_colsOk _ fld frm ?_
      refine multiLoop_colsOk _ fld hnd syms ⟨[], []⟩ frm ?_ hml
      intro p hp
      simp at hp

theorem get_pricing_multi_symbol_witness :
    resEx.cols.map Prod.fst = ["A", "B"] :=
  (get_pricing_multi_symbol histEx ["A", "B"] "price" resEx (by decide)
    (by decide) (by decide)
    (fun s frm hfrm => by
      have h0 : singleFetch histEx (Symbol.one s) (some (Fields.str "price")) =
          some frmSel := rfl
      rw [h0] at hfrm
      rw [(Option.some.inj hfrm).symm]
      decide)).1

end Quantopian
